import Mathlib

/-!
Shallow embedding of the Epsilon sliding mark-compact heap
(`src/hotspot/share/gc/epsilon/epsilonHeap.cpp`) and of the
`net.shipilev.Magic` primitives (`src/hotspot/share/prims/shipilevMagic.cpp`).

Machine sizes are modelled as `Nat` (all the quantities involved are
`size_t`, and the source never relies on wrap-around in the modelled code
paths); times are modelled as `Int` (`int64_t` nanoseconds).
-/

namespace Epsilon

/-! ## Allocator expansion protocol (`EpsilonHeap::allocate_work`, slow path) -/

/-- Heap sizing state visible to the expansion decision under the heap lock:
`reserved = max_capacity()`, `committed = capacity()`, `used = used()`,
all in bytes. -/
structure AllocState where
  reserved : Nat
  committed : Nat
  used : Nat
deriving DecidableEq

/-- Outcome of one locked expansion attempt in `allocate_work`. -/
inductive AllocDecision where
  | expandBy (bytes : Nat)
  | outOfMemory
deriving DecidableEq

/-- The expansion decision taken under `Heap_lock` in
`EpsilonHeap::allocate_work` after both `par_allocate` attempts failed:
computes `uncommitted_space`, `unused_space`, `want_space` and picks the
branch exactly as the source does (note the strict comparisons). -/
def allocate_work_expand (st : AllocState) (size_in_bytes minHeapExpand : Nat) :
    AllocDecision :=
  let uncommitted_space := st.reserved - st.committed
  let unused_space := st.reserved - st.used
  let want_space := max size_in_bytes minHeapExpand
  if want_space < uncommitted_space then
    AllocDecision.expandBy want_space
  else if size_in_bytes < unused_space then
    AllocDecision.expandBy uncommitted_space
  else
    AllocDecision.outOfMemory

/-! ## GC request coalescing (`VM_EpsilonCollect::doit_prologue`) -/

/-- `VM_EpsilonCollect::doit_prologue`, as a function of the request id
read before taking `Heap_lock` (`id0`) and the request id re-read under
the lock (`idLocked`). Returns the prologue's boolean result and the
request-id value after the prologue. -/
def doit_prologue (id0 idLocked : Nat) : Bool × Nat :=
  if id0 < idLocked then
    (false, idLocked)
  else
    (true, idLocked + 1)

/-! ## Elastic TLAB decay (`EpsilonHeap::allocate_new_tlab`) -/

/-- The ergonomics portion of `EpsilonHeap::allocate_new_tlab` up to and
including the decay check: returns the `ergo_tlab` value subsequently used
for the size computation, paired with the thread's stored ergonomic TLAB
size after the check. `requested` is `requested_size`, the default when
the elastic path is not taken. -/
def tlab_decay_step (elasticTLAB elasticTLABDecay : Bool)
    (storedErgo requested : Nat) (lastTime time decayNs : Int) : Nat × Nat :=
  if elasticTLAB then
    if elasticTLABDecay ∧ lastTime ≠ 0 ∧ time - lastTime > decayNs then
      (0, 0)
    else
      (storedErgo, storedErgo)
  else
    (requested, storedErgo)

/-! ## Pin lock (`EpsilonHeap::pin_object` / `unpin_object`) -/

/-- Modelled from the spec: the host `GCLocker` (its implementation lives
outside this repository) maintains a reader-style counter; `enter`
increments it. -/
def gclocker_enter (readers : Nat) : Nat := readers + 1

/-- Modelled from the spec: `GCLocker::exit` decrements the reader counter. -/
def gclocker_exit (readers : Nat) : Nat := readers - 1

/-- Modelled from the spec: `GCLocker::is_active` holds when the
reader-count is non-zero. -/
def gclocker_is_active (readers : Nat) : Bool := readers ≠ 0

/-- `EpsilonHeap::pin_object`: enters the GC locker only when
`EpsilonSlidingGC` is set. Returns the new reader count. -/
def pin_object (slidingGC : Bool) (readers : Nat) : Nat :=
  if slidingGC then gclocker_enter readers else readers

/-- `EpsilonHeap::unpin_object`: exits the GC locker only when
`EpsilonSlidingGC` is set. Returns the new reader count. -/
def unpin_object (slidingGC : Bool) (readers : Nat) : Nat :=
  if slidingGC then gclocker_exit readers else readers

/-! ## Marking (`EpsilonScanOopClosure` and the mark loop of `entry_collect`)

Heap objects are identified by their addresses. `univ` is the set of
addresses of objects in the heap; a reference to an address outside `univ`
is not a heap object and is ignored (in the source every scanned oop is a
heap object). `adj a` lists the reference fields of the object at `a`. -/

/-- One run of `EpsilonScanOopClosure` over the reference slots `os` of an
object (or over the roots): each non-null slot whose target is a heap
object and is not yet marked gets marked and pushed, exactly in slot
order. Returns the bitmap and the stack after the scan. -/
def scanRefs (univ : Finset Nat) : List Nat → Finset Nat → List Nat →
    Finset Nat × List Nat
  | [], marked, stack => (marked, stack)
  | o :: os, marked, stack =>
    if o ∈ univ ∧ o ∉ marked then
      scanRefs univ os (insert o marked) (o :: stack)
    else
      scanRefs univ os marked stack

/-- `scanRefs` never unmarks. -/
theorem scanRefs_marked_subset (univ : Finset Nat) (os : List Nat)
    (marked : Finset Nat) (stack : List Nat) :
    marked ⊆ (scanRefs univ os marked stack).1 := by
  induction os generalizing marked stack with
  | nil => simp [scanRefs]
  | cons o os ih =>
    by_cases h : o ∈ univ ∧ o ∉ marked
    · simpa [scanRefs, h] using
        (Finset.subset_insert o marked).trans (ih (insert o marked) (o :: stack))
    · simpa [scanRefs, h] using ih marked stack

/-- A `scanRefs` run either changes nothing or strictly shrinks the set of
unmarked heap objects. -/
theorem scanRefs_progress (univ : Finset Nat) (os : List Nat)
    (marked : Finset Nat) (stack : List Nat) :
    scanRefs univ os marked stack = (marked, stack) ∨
      (univ \ (scanRefs univ os marked stack).1).card < (univ \ marked).card := by
  induction os generalizing marked stack with
  | nil => left; simp [scanRefs]
  | cons o os ih =>
    by_cases h : o ∈ univ ∧ o ∉ marked
    · right
      rw [scanRefs, if_pos h]
      have hsub : (scanRefs univ os (insert o marked) (o :: stack)).1 ⊇
          insert o marked := scanRefs_marked_subset univ os _ _
      apply Finset.card_lt_card
      constructor
      · intro x hx
        rcases Finset.mem_sdiff.mp hx with ⟨hxu, hxm⟩
        exact Finset.mem_sdiff.mpr ⟨hxu, fun hx2 =>
          hxm (hsub (Finset.mem_insert_of_mem hx2))⟩
      · intro hcon
        have ho : o ∈ univ \ marked := Finset.mem_sdiff.mpr ⟨h.1, h.2⟩
        have := hcon ho
        exact (Finset.mem_sdiff.mp this).2 (hsub (Finset.mem_insert_self o marked))
    · rw [scanRefs, if_neg h]
      exact ih marked stack

/-- The pop-and-scan loop of `entry_collect` Step 1: pop an object, scan
its outgoing references with `EpsilonScanOopClosure`, count the iteration
(`stat_reachable_heap++`), and repeat until the stack is empty. -/
def markLoop (adj : Nat → List Nat) (univ : Finset Nat) :
    Finset Nat → List Nat → Nat → Finset Nat × Nat
  | marked, [], count => (marked, count)
  | marked, obj :: rest, count =>
    markLoop adj univ (scanRefs univ (adj obj) marked rest).1
      (scanRefs univ (adj obj) marked rest).2 (count + 1)
termination_by marked stack _ => ((univ \ marked).card, stack.length)
decreasing_by
  rcases scanRefs_progress univ (adj obj) marked rest with h | h
  · rw [h]
    exact Prod.Lex.right _ (Nat.lt_succ_self _)
  · exact Prod.Lex.left _ _ h

/-- Step 1 of `entry_collect`: seed the bitmap and the mark stack from the
roots via `EpsilonScanOopClosure`, then run the pop-and-scan loop.
Returns the final bitmap and the loop iteration count
(`stat_reachable_heap`). -/
def epsilonMark (adj : Nat → List Nat) (univ : Finset Nat) (roots : List Nat) :
    Finset Nat × Nat :=
  let seeded := scanRefs univ roots ∅ []
  markLoop adj univ seeded.1 seeded.2 0

/-- Reachability in the modelled object graph: one step follows a
reference field into a heap object. -/
def EdgeRel (adj : Nat → List Nat) (univ : Finset Nat) (x y : Nat) : Prop :=
  y ∈ adj x ∧ y ∈ univ

/-- `x` is reachable from the roots: some root that is a heap object
reaches `x` through reference fields. -/
def Reaches (adj : Nat → List Nat) (univ : Finset Nat) (roots : List Nat)
    (x : Nat) : Prop :=
  ∃ r, r ∈ roots ∧ r ∈ univ ∧ Relation.ReflTransGen (EdgeRel adj univ) r x

/-! ## Computing forwarding addresses (`EpsilonCalcNewLocationObjectClosure`)

The bitmap walk (`walk_bitmap`) visits marked objects in increasing
address order; each object is given by its address and its size in
words. -/

/-- One visited object during the Step 2 walk: its original address, the
value of the compaction point when it was visited, and its assigned
forwardee (`none` when the object already sits at the compaction point
and `forward_to` is skipped). -/
structure FwdEntry where
  addr : Nat
  cp : Nat
  fwd : Option Nat
deriving DecidableEq

/-- Result of the Step 2 walk: the final compaction point (the future
`new_top`), the per-object entries in visit order, and the number of
calls made to `PreservedMarks::push_if_necessary`. -/
structure FwdResult where
  compact_point : Nat
  entries : List FwdEntry
  pushCalls : Nat
deriving DecidableEq

/-- `EpsilonCalcNewLocationObjectClosure` applied along the address-ordered
list of marked objects `objs` (address, size) with initial compaction
point `cp`: an object not at the compaction point has its mark pushed if
necessary and is forwarded to the compaction point; the compaction point
then advances by the object's size. -/
def calc_new_locations (cp : Nat) (objs : List (Nat × Nat)) : FwdResult :=
  match objs with
  | [] => ⟨cp, [], 0⟩
  | (a, s) :: rest =>
    let r := calc_new_locations (cp + s) rest
    ⟨r.compact_point,
     ⟨a, cp, if a ≠ cp then some cp else none⟩ :: r.entries,
     (if a ≠ cp then 1 else 0) + r.pushCalls⟩

/-- Well-formed address-ordered layout: every object starts at or after
`lo`, and objects do not overlap. This is what `walk_bitmap` guarantees
for the list of marked objects it visits. -/
def chainWF : Nat → List (Nat × Nat) → Bool
  | _, [] => true
  | lo, (a, s) :: rest => (decide (lo ≤ a)) && chainWF (a + s) rest

/-- Fully compacted layout: objects tile the space contiguously starting
exactly at `cp`. This is the layout Step 4 produces. -/
def tilesFrom : Nat → List (Nat × Nat) → Bool
  | _, [] => true
  | cp, (a, s) :: rest => (decide (a = cp)) && tilesFrom (a + s) rest

/-! ## The collection cycle (`EpsilonHeap::entry_collect`) -/

/-- A heap object: address, size in words, and the addresses held in its
reference fields. -/
structure EObj where
  addr : Nat
  size : Nat
  refs : List Nat
deriving DecidableEq

/-- The Epsilon heap as the collector sees it: space bottom, space top,
and the parsable object sequence in address order. -/
structure EHeap where
  bottom : Nat
  top : Nat
  objs : List EObj
deriving DecidableEq

/-- The set of object addresses of a heap (the marking universe). -/
def heapUniv (h : EHeap) : Finset Nat :=
  (h.objs.map EObj.addr).toFinset

/-- Object-graph adjacency of a heap: the reference fields of the object
at a given address. -/
def heapAdj (h : EHeap) (a : Nat) : List Nat :=
  match h.objs.find? (fun o => o.addr = a) with
  | some o => o.refs
  | none => []

/-- Look up the forwardee of the object at `a` recorded by Step 2
(`FullGCForwarding::forwardee`); an object without a forwarding record
stays at its own address. -/
def forwardeeOf (entries : List FwdEntry) (a : Nat) : Nat :=
  match entries.find? (fun e => e.addr = a) with
  | some e =>
    match e.fwd with
    | some f => f
    | none => a
  | none => a

/-- Phases of `entry_collect`, in the order their `GCTraceTime` scopes
open. -/
inductive Phase where
  | prologue
  | mark
  | calcFwd
  | adjust
  | move
  | epilogue
deriving DecidableEq

/-- Result of one `entry_collect` run: the heap afterwards, the phases
that were entered, the number of `push_if_necessary` calls
(`stat_preserved_marks` upper bound), and the number of objects copied in
Step 4 (`stat_moved`). -/
structure GCResult where
  heap : EHeap
  phases : List Phase
  pushCalls : Nat
  moved : Nat
deriving DecidableEq

/-- The set of objects marked by Step 1 of a cycle on heap `h` seeded
with `roots`. -/
def cycleMarked (h : EHeap) (roots : List Nat) : Finset Nat :=
  (epsilonMark (heapAdj h) (heapUniv h) roots).1

/-- The address-ordered list of live (marked) objects visited by
`walk_bitmap`. -/
def cycleLive (h : EHeap) (roots : List Nat) : List EObj :=
  h.objs.filter (fun o => o.addr ∈ cycleMarked h roots)

/-- The Step 2 forwarding computation of a cycle. -/
def cycleFwd (h : EHeap) (roots : List Nat) : FwdResult :=
  calc_new_locations h.bottom
    ((cycleLive h roots).map (fun o => (o.addr, o.size)))

/-- Steps 1-5 of `entry_collect` (the part after the prologue): mark,
compute forwarding over the marked objects in address order, adjust the
reference fields of live objects, slide every forwarded object to its
forwardee and retract the top to the final compaction point. -/
def collect_cycle (h : EHeap) (roots : List Nat) : GCResult :=
  let r := cycleFwd h roots
  let adjusted := (cycleLive h roots).map (fun o =>
    EObj.mk o.addr o.size (o.refs.map (forwardeeOf r.entries)))
  let movedObjs := adjusted.map (fun o =>
    EObj.mk (forwardeeOf r.entries o.addr) o.size o.refs)
  ⟨⟨h.bottom, r.compact_point, movedObjs⟩,
   [Phase.prologue, Phase.mark, Phase.calcFwd, Phase.adjust, Phase.move,
    Phase.epilogue],
   r.pushCalls,
   (r.entries.filter (fun e => e.fwd ≠ none)).length⟩

/-- `EpsilonHeap::entry_collect`. Aborts before the prologue when the GC
locker is active (`readers` is the pin reader-count); aborts after the
prologue when committing the bitmap fails (`commitOk = false`). Otherwise
runs the full cycle. -/
def entry_collect (readers : Nat) (commitOk : Bool) (h : EHeap)
    (roots : List Nat) : GCResult :=
  if gclocker_is_active readers then
    ⟨h, [], 0, 0⟩
  else if !commitOk then
    ⟨h, [Phase.prologue], 0, 0⟩
  else
    collect_cycle h roots

end Epsilon

namespace ShipilevMagic

/-! ## `NetShipilevMagic_getReferencedObjects`
An object's reference fields are modelled as a list of classes in the
super-class chain, each contributing its list of nonstatic oop fields;
a field holds `none` for a null reference. -/

/-- The counting loop: sums `nonstatic_oop_field_count` over the class and
all its super-classes. -/
def oopFieldCount (chain : List (List (Option Nat))) : Nat :=
  (chain.map List.length).sum

/-- `NetShipilevMagic_getReferencedObjects`: returns the `jint` result and
the list of elements written into the buffer (in order, starting at
index 0). The closure `GetReferencedObjectsClosure` stores only non-null
loaded references and counts them. -/
def getReferencedObjects (chain : List (List (Option Nat))) (bufLen : Nat) :
    Int × List Nat :=
  let count := oopFieldCount chain
  if count = 0 then
    (0, [])
  else if bufLen < count then
    (-1, [])
  else
    let written := chain.flatten.filterMap id
    ((written.length : Int), written)

end ShipilevMagic

namespace Epsilon

/-! ## Lemmas about `scanRefs` -/

/-- Each push accompanies exactly one fresh mark: the bitmap cardinality
and the stack length grow in lockstep. -/
theorem scanRefs_card (univ : Finset Nat) (os : List Nat)
    (marked : Finset Nat) (stack : List Nat) :
    (scanRefs univ os marked stack).1.card + stack.length
      = marked.card + (scanRefs univ os marked stack).2.length := by
  induction os generalizing marked stack with
  | nil => simp [scanRefs]
  | cons o os ih =>
    by_cases h : o ∈ univ ∧ o ∉ marked
    · rw [scanRefs, if_pos h]
      have h2 := ih (insert o marked) (o :: stack)
      rw [Finset.card_insert_of_not_mem h.2, List.length_cons] at h2
      omega
    · rw [scanRefs, if_neg h]
      exact ih marked stack

/-- Every heap object appearing among the scanned slots ends up marked. -/
theorem scanRefs_covers (univ : Finset Nat) (os : List Nat)
    (marked : Finset Nat) (stack : List Nat) :
    ∀ y ∈ os, y ∈ univ → y ∈ (scanRefs univ os marked stack).1 := by
  induction os generalizing marked stack with
  | nil => simp
  | cons o os ih =>
    intro y hy hyu
    by_cases h : o ∈ univ ∧ o ∉ marked
    · rw [scanRefs, if_pos h]
      rcases List.mem_cons.mp hy with rfl | hy2
      · exact scanRefs_marked_subset univ os _ _ (Finset.mem_insert_self y marked)
      · exact ih _ _ y hy2 hyu
    · rw [scanRefs, if_neg h]
      rcases List.mem_cons.mp hy with rfl | hy2
      · have hym : y ∈ marked := by
          by_contra hc
          exact h ⟨hyu, hc⟩
        exact scanRefs_marked_subset univ os _ _ hym
      · exact ih _ _ y hy2 hyu

/-- A mark present after the scan was present before or belongs to a heap
object among the scanned slots. -/
theorem scanRefs_marked_src (univ : Finset Nat) (os : List Nat)
    (marked : Finset Nat) (stack : List Nat) :
    ∀ x ∈ (scanRefs univ os marked stack).1,
      x ∈ marked ∨ (x ∈ os ∧ x ∈ univ) := by
  induction os generalizing marked stack with
  | nil =>
    intro x hx
    left
    simpa [scanRefs] using hx
  | cons o os ih =>
    intro x hx
    by_cases h : o ∈ univ ∧ o ∉ marked
    · rw [scanRefs, if_pos h] at hx
      rcases ih _ _ x hx with hm | ⟨hos, hu⟩
      · rcases Finset.mem_insert.mp hm with rfl | hm2
        · exact Or.inr ⟨List.mem_cons_self _ _, h.1⟩
        · exact Or.inl hm2
      · exact Or.inr ⟨List.mem_cons_of_mem _ hos, hu⟩
    · rw [scanRefs, if_neg h] at hx
      rcases ih _ _ x hx with hm | ⟨hos, hu⟩
      · exact Or.inl hm
      · exact Or.inr ⟨List.mem_cons_of_mem _ hos, hu⟩

/-- A stack entry present after the scan was on the stack before or is a
heap object among the scanned slots. -/
theorem scanRefs_stack_src (univ : Finset Nat) (os : List Nat)
    (marked : Finset Nat) (stack : List Nat) :
    ∀ x ∈ (scanRefs univ os marked stack).2,
      x ∈ stack ∨ (x ∈ os ∧ x ∈ univ) := by
  induction os generalizing marked stack with
  | nil =>
    intro x hx
    left
    simpa [scanRefs] using hx
  | cons o os ih =>
    intro x hx
    by_cases h : o ∈ univ ∧ o ∉ marked
    · rw [scanRefs, if_pos h] at hx
      rcases ih _ _ x hx with hm | ⟨hos, hu⟩
      · rcases List.mem_cons.mp hm with rfl | hm2
        · exact Or.inr ⟨List.mem_cons_self _ _, h.1⟩
        · exact Or.inl hm2
      · exact Or.inr ⟨List.mem_cons_of_mem _ hos, hu⟩
    · rw [scanRefs, if_neg h] at hx
      rcases ih _ _ x hx with hm | ⟨hos, hu⟩
      · exact Or.inl hm
      · exact Or.inr ⟨List.mem_cons_of_mem _ hos, hu⟩

/-- The scan never pops: the incoming stack survives. -/
theorem scanRefs_stack_sub (univ : Finset Nat) (os : List Nat)
    (marked : Finset Nat) (stack : List Nat) :
    ∀ x ∈ stack, x ∈ (scanRefs univ os marked stack).2 := by
  induction os generalizing marked stack with
  | nil => simp [scanRefs]
  | cons o os ih =>
    intro x hx
    by_cases h : o ∈ univ ∧ o ∉ marked
    · rw [scanRefs, if_pos h]
      exact ih _ _ x (List.mem_cons_of_mem _ hx)
    · rw [scanRefs, if_neg h]
      exact ih _ _ x hx

/-- A newly-set mark bit belongs to an object that is now on the stack. -/
theorem scanRefs_new_on_stack (univ : Finset Nat) (os : List Nat)
    (marked : Finset Nat) (stack : List Nat) :
    ∀ x ∈ (scanRefs univ os marked stack).1,
      x ∈ marked ∨ x ∈ (scanRefs univ os marked stack).2 := by
  induction os generalizing marked stack with
  | nil =>
    intro x hx
    left
    simpa [scanRefs] using hx
  | cons o os ih =>
    intro x hx
    by_cases h : o ∈ univ ∧ o ∉ marked
    · rw [scanRefs, if_pos h] at hx ⊢
      rcases ih _ _ x hx with hm | hs2
      · rcases Finset.mem_insert.mp hm with rfl | hm2
        · exact Or.inr (scanRefs_stack_sub univ os _ _ x (List.mem_cons_self x stack))
        · exact Or.inl hm2
      · exact Or.inr hs2
    · rw [scanRefs, if_neg h] at hx ⊢
      exact ih _ _ x hx

/-! ## Lemmas about `markLoop` and `epsilonMark` -/

/-- The mark loop never unmarks. -/
theorem markLoop_mono (adj : Nat → List Nat) (univ : Finset Nat)
    (marked : Finset Nat) (stack : List Nat) (count : Nat) :
    marked ⊆ (markLoop adj univ marked stack count).1 := by
  induction marked, stack, count using markLoop.induct adj univ with
  | case1 marked count => simp [markLoop]
  | case2 marked obj rest count ih =>
    rw [markLoop]
    exact (scanRefs_marked_subset univ (adj obj) marked rest).trans ih

/-- Loop iterations and fresh marks stay balanced: the final count plus
the incoming bitmap cardinality equals the incoming count plus the stack
length plus the final bitmap cardinality. -/
theorem markLoop_count (adj : Nat → List Nat) (univ : Finset Nat)
    (marked : Finset Nat) (stack : List Nat) (count : Nat) :
    (markLoop adj univ marked stack count).2 + marked.card
      = count + stack.length + (markLoop adj univ marked stack count).1.card := by
  induction marked, stack, count using markLoop.induct adj univ with
  | case1 marked count => simp [markLoop]
  | case2 marked obj rest count ih =>
    rw [markLoop]
    have hc := scanRefs_card univ (adj obj) marked rest
    simp only [List.length_cons]
    omega

/-- Soundness of the mark loop: any property that holds on the current
bitmap and stack and is closed under following reference fields holds on
the final bitmap. -/
theorem markLoop_sound (adj : Nat → List Nat) (univ : Finset Nat)
    (P : Nat → Prop) (hP : ∀ x y, P x → y ∈ adj x → y ∈ univ → P y)
    (marked : Finset Nat) (stack : List Nat) (count : Nat)
    (hm : ∀ x ∈ marked, P x) (hs : ∀ x ∈ stack, P x) :
    ∀ x ∈ (markLoop adj univ marked stack count).1, P x := by
  revert hm hs
  induction marked, stack, count using markLoop.induct adj univ with
  | case1 marked count =>
    intro hm _ x hx
    rw [markLoop] at hx
    exact hm x hx
  | case2 marked obj rest count ih =>
    intro hm hs
    rw [markLoop]
    refine ih ?_ ?_
    · intro x hx
      rcases scanRefs_marked_src univ (adj obj) marked rest x hx with hxm | ⟨hxa, hxu⟩
      · exact hm x hxm
      · exact hP obj x (hs obj (List.mem_cons_self obj rest)) hxa hxu
    · intro x hx
      rcases scanRefs_stack_src univ (adj obj) marked rest x hx with hxr | ⟨hxa, hxu⟩
      · exact hs x (List.mem_cons_of_mem _ hxr)
      · exact hP obj x (hs obj (List.mem_cons_self obj rest)) hxa hxu

/-- Completeness helper: if every marked object is either fully scanned or
still on the stack, the final bitmap is closed under reference fields. -/
theorem markLoop_closed (adj : Nat → List Nat) (univ : Finset Nat)
    (marked : Finset Nat) (stack : List Nat) (count : Nat)
    (hinv : ∀ x ∈ marked,
      (∀ y, y ∈ adj x → y ∈ univ → y ∈ marked) ∨ x ∈ stack) :
    ∀ x ∈ (markLoop adj univ marked stack count).1, ∀ y, y ∈ adj x →
      y ∈ univ → y ∈ (markLoop adj univ marked stack count).1 := by
  revert hinv
  induction marked, stack, count using markLoop.induct adj univ with
  | case1 marked count =>
    intro hinv x hx y hy hyu
    rw [markLoop] at hx ⊢
    rcases hinv x hx with hcl | hstk
    · exact hcl y hy hyu
    · simp at hstk
  | case2 marked obj rest count ih =>
    intro hinv
    rw [markLoop]
    refine ih ?_
    intro x hx
    rcases scanRefs_new_on_stack univ (adj obj) marked rest x hx with hxm | hxs
    · rcases hinv x hxm with hcl | hstk
      · exact Or.inl fun y hy hyu =>
          scanRefs_marked_subset univ (adj obj) marked rest (hcl y hy hyu)
      · rcases List.mem_cons.mp hstk with rfl | hrest
        · exact Or.inl fun y hy hyu =>
            scanRefs_covers univ (adj x) marked rest y hy hyu
        · exact Or.inr (scanRefs_stack_sub univ (adj obj) marked rest x hrest)
    · exact Or.inr hxs

/-- The iteration count of the whole mark equals the number of marked
objects. -/
theorem epsilonMark_count (adj : Nat → List Nat) (univ : Finset Nat)
    (roots : List Nat) :
    (epsilonMark adj univ roots).2 = (epsilonMark adj univ roots).1.card := by
  have h0 := scanRefs_card univ roots ∅ []
  have h1 := markLoop_count adj univ (scanRefs univ roots ∅ []).1
    (scanRefs univ roots ∅ []).2 0
  simp only [Finset.card_empty, List.length_nil] at h0
  simp only [epsilonMark]
  omega

/-- Every marked object is reachable from the roots. -/
theorem epsilonMark_sound (adj : Nat → List Nat) (univ : Finset Nat)
    (roots : List Nat) :
    ∀ x ∈ (epsilonMark adj univ roots).1, Reaches adj univ roots x := by
  simp only [epsilonMark]
  refine markLoop_sound adj univ (Reaches adj univ roots) ?_ _ _ _ ?_ ?_
  · rintro x y ⟨r, hr, hru, rtg⟩ hy hyu
    exact ⟨r, hr, hru, rtg.tail ⟨hy, hyu⟩⟩
  · intro x hx
    rcases scanRefs_marked_src univ roots ∅ [] x hx with hm | ⟨hroot, hu⟩
    · simp at hm
    · exact ⟨x, hroot, hu, Relation.ReflTransGen.refl⟩
  · intro x hx
    rcases scanRefs_stack_src univ roots ∅ [] x hx with hm | ⟨hroot, hu⟩
    · simp at hm
    · exact ⟨x, hroot, hu, Relation.ReflTransGen.refl⟩

/-- Every object reachable from the roots gets marked. -/
theorem epsilonMark_complete (adj : Nat → List Nat) (univ : Finset Nat)
    (roots : List Nat) :
    ∀ x, Reaches adj univ roots x → x ∈ (epsilonMark adj univ roots).1 := by
  rintro x ⟨r, hr, hru, rtg⟩
  have hclosed := markLoop_closed adj univ (scanRefs univ roots ∅ []).1
    (scanRefs univ roots ∅ []).2 0
    (fun x hx => Or.inr (by
      rcases scanRefs_new_on_stack univ roots ∅ [] x hx with hm | hs2
      · simp at hm
      · exact hs2))
  have hr0 : r ∈ (scanRefs univ roots ∅ []).1 :=
    scanRefs_covers univ roots ∅ [] r hr hru
  have hrfin : r ∈ (epsilonMark adj univ roots).1 := by
    simp only [epsilonMark]
    exact markLoop_mono adj univ _ _ 0 hr0
  simp only [epsilonMark] at hrfin ⊢
  induction rtg with
  | refl => exact hrfin
  | tail _ hbc ih => exact hclosed _ ih _ hbc.1 hbc.2

end Epsilon

namespace Epsilon

/-! ## Lemmas about `calc_new_locations` -/

/-- The final compaction point is the start plus the total size of the
visited objects. -/
theorem calc_compact_point (cp : Nat) (objs : List (Nat × Nat)) :
    (calc_new_locations cp objs).compact_point
      = cp + (objs.map Prod.snd).sum := by
  induction objs generalizing cp with
  | nil => simp [calc_new_locations]
  | cons p rest ih =>
    obtain ⟨a, s⟩ := p
    simp [calc_new_locations, ih (cp + s)]
    omega

/-- Forwarding data of each entry: an object away from the compaction
point is forwarded there, an object at the compaction point is not
forwarded. -/
theorem calc_fwd_char (cp : Nat) (objs : List (Nat × Nat)) :
    ∀ e ∈ (calc_new_locations cp objs).entries,
      e.fwd = if e.addr ≠ e.cp then some e.cp else none := by
  induction objs generalizing cp with
  | nil => simp [calc_new_locations]
  | cons p rest ih =>
    obtain ⟨a, s⟩ := p
    intro e he
    simp only [calc_new_locations, List.mem_cons] at he
    rcases he with rfl | he
    · rfl
    · exact ih (cp + s) e he

/-- Along a well-formed layout the compaction point never passes the
object being visited. -/
theorem calc_cp_le_addr (cp lo : Nat) (objs : List (Nat × Nat))
    (hcp : cp ≤ lo) (hWF : chainWF lo objs = true) :
    ∀ e ∈ (calc_new_locations cp objs).entries, e.cp ≤ e.addr := by
  induction objs generalizing cp lo with
  | nil => simp [calc_new_locations]
  | cons p rest ih =>
    obtain ⟨a, s⟩ := p
    simp only [chainWF, Bool.and_eq_true, decide_eq_true_eq] at hWF
    intro e he
    simp only [calc_new_locations, List.mem_cons] at he
    rcases he with rfl | he
    · show cp ≤ a
      omega
    · exact ih (cp + s) (a + s) (by omega) hWF.2 e he

/-- On a well-formed layout that fits under `top`, the final compaction
point stays under `top`. -/
theorem calc_cp_le_top (cp lo top : Nat) (objs : List (Nat × Nat))
    (hcp : cp ≤ lo) (hlo : lo ≤ top) (hWF : chainWF lo objs = true)
    (hin : ∀ p ∈ objs, p.1 + p.2 ≤ top) :
    (calc_new_locations cp objs).compact_point ≤ top := by
  induction objs generalizing cp lo with
  | nil =>
    simp only [calc_new_locations]
    omega
  | cons p rest ih =>
    obtain ⟨a, s⟩ := p
    simp only [chainWF, Bool.and_eq_true, decide_eq_true_eq] at hWF
    have ha : a + s ≤ top := hin (a, s) (List.mem_cons_self _ _)
    simp only [calc_new_locations]
    exact ih (cp + s) (a + s) (by omega) (by omega) hWF.2
      (fun q hq => hin q (List.mem_cons_of_mem _ hq))

/-- With positive object sizes, the forwardee addresses assigned along
the walk are strictly increasing and bounded below by the starting
compaction point. -/
theorem calc_fwd_sorted (cp : Nat) (objs : List (Nat × Nat))
    (hpos : ∀ p ∈ objs, 0 < p.2) :
    List.Pairwise (· < ·)
        ((calc_new_locations cp objs).entries.filterMap FwdEntry.fwd) ∧
      ∀ f ∈ (calc_new_locations cp objs).entries.filterMap FwdEntry.fwd,
        cp ≤ f := by
  induction objs generalizing cp with
  | nil => simp [calc_new_locations]
  | cons p rest ih =>
    obtain ⟨a, s⟩ := p
    have hs : 0 < s := hpos (a, s) (List.mem_cons_self _ _)
    have ihr := ih (cp + s) (fun q hq => hpos q (List.mem_cons_of_mem _ hq))
    by_cases heq : a = cp
    · have hstep : ((calc_new_locations cp ((a, s) :: rest)).entries).filterMap
          FwdEntry.fwd
          = ((calc_new_locations (cp + s) rest).entries).filterMap
            FwdEntry.fwd := by
        simp [calc_new_locations, heq]
      rw [hstep]
      refine ⟨ihr.1, fun f hf => ?_⟩
      have := ihr.2 f hf
      omega
    · have hstep : ((calc_new_locations cp ((a, s) :: rest)).entries).filterMap
          FwdEntry.fwd
          = cp :: ((calc_new_locations (cp + s) rest).entries).filterMap
            FwdEntry.fwd := by
        simp [calc_new_locations, heq]
      rw [hstep]
      constructor
      · refine List.pairwise_cons.mpr ⟨fun b hb => ?_, ihr.1⟩
        have := ihr.2 b hb
        omega
      · intro f hf
        rcases List.mem_cons.mp hf with rfl | hf2
        · exact le_refl f
        · have := ihr.2 f hf2
          omega

/-- On an already-compacted (tiled) layout no object is forwarded and
`push_if_necessary` is never called. -/
theorem calc_tiles_none (cp : Nat) (objs : List (Nat × Nat))
    (ht : tilesFrom cp objs = true) :
    (∀ e ∈ (calc_new_locations cp objs).entries, e.fwd = none) ∧
      (calc_new_locations cp objs).pushCalls = 0 := by
  induction objs generalizing cp with
  | nil => simp [calc_new_locations]
  | cons p rest ih =>
    obtain ⟨a, s⟩ := p
    simp only [tilesFrom, Bool.and_eq_true, decide_eq_true_eq] at ht
    obtain ⟨rfl, ht2⟩ := ht
    have ihr := ih (a + s) ht2
    constructor
    · intro e he
      simp only [calc_new_locations, List.mem_cons] at he
      rcases he with rfl | he
      · simp
      · exact ihr.1 e he
    · simp [calc_new_locations, ihr.2]
  
/-- When no entry carries forwarding data, every object stays at its own
address. -/
theorem forwardeeOf_of_all_none (entries : List FwdEntry)
    (hall : ∀ e ∈ entries, e.fwd = none) (a : Nat) :
    forwardeeOf entries a = a := by
  unfold forwardeeOf
  cases hfind : entries.find? (fun e => e.addr = a) with
  | none => rfl
  | some e =>
    have he := List.mem_of_find?_eq_some hfind
    simp [hall e he]

end Epsilon

namespace Epsilon

/-! ## Lemmas about layouts and forwardee lookup -/

/-- A root that is a heap object is marked by the seeding scan. -/
theorem epsilonMark_root_marked (adj : Nat → List Nat) (univ : Finset Nat)
    (roots : List Nat) :
    ∀ r ∈ roots, r ∈ univ → r ∈ (epsilonMark adj univ roots).1 := by
  intro r hr hru
  simp only [epsilonMark]
  exact markLoop_mono adj univ _ _ 0 (scanRefs_covers univ roots ∅ [] r hr hru)

/-- In a well-formed layout every object starts at or after the bound. -/
theorem chainWF_addr_lb (lo : Nat) (l : List (Nat × Nat))
    (h : chainWF lo l = true) : ∀ p ∈ l, lo ≤ p.1 := by
  induction l generalizing lo with
  | nil => simp
  | cons p rest ih =>
    obtain ⟨a, s⟩ := p
    simp only [chainWF, Bool.and_eq_true, decide_eq_true_eq] at h
    intro q hq
    rcases List.mem_cons.mp hq with rfl | hq2
    · exact h.1
    · have := ih (a + s) h.2 q hq2
      omega

/-- Well-formedness is monotone in the lower bound. -/
theorem chainWF_mono (lo lo' : Nat) (l : List (Nat × Nat)) (hle : lo' ≤ lo)
    (h : chainWF lo l = true) : chainWF lo' l = true := by
  cases l with
  | nil => rfl
  | cons p rest =>
    obtain ⟨a, s⟩ := p
    simp only [chainWF, Bool.and_eq_true, decide_eq_true_eq] at h ⊢
    exact ⟨by omega, h.2⟩

/-- Well-formedness survives dropping objects (the live sublist of a
well-formed heap is well-formed). -/
theorem chainWF_sublist (lo : Nat) (l l' : List (Nat × Nat)) (hsub : List.Sublist l' l)
    (h : chainWF lo l = true) : chainWF lo l' = true := by
  induction hsub generalizing lo with
  | slnil => rfl
  | cons p _ ih =>
    obtain ⟨a, s⟩ := p
    simp only [chainWF, Bool.and_eq_true, decide_eq_true_eq] at h
    exact chainWF_mono (a + s) lo _ (by omega) (ih (a + s) h.2)
  | cons₂ p _ ih =>
    obtain ⟨a, s⟩ := p
    simp only [chainWF, Bool.and_eq_true, decide_eq_true_eq] at h ⊢
    exact ⟨h.1, ih (a + s) h.2⟩

/-- Forwardee lookup resolves the head entry to its recorded compaction
point, whether or not the object was actually forwarded. -/
theorem forwardeeOf_head_cp (a cp : Nat) (rest : List FwdEntry) :
    forwardeeOf (⟨a, cp, if a ≠ cp then some cp else none⟩ :: rest) a = cp := by
  by_cases heq : a = cp
  · simp [forwardeeOf, List.find?, heq]
  · simp [forwardeeOf, List.find?, heq]

/-- Forwardee lookup skips entries for other addresses. -/
theorem forwardeeOf_skip (e : FwdEntry) (rest : List FwdEntry) (b : Nat)
    (hne : ¬ e.addr = b) : forwardeeOf (e :: rest) b = forwardeeOf rest b := by
  simp [forwardeeOf, List.find?, hne]

/-- Relocating a well-formed layout to the forwardees computed by Step 2
produces exactly the tiling that starts at the compaction point. -/
theorem calc_moved_tiles (cp lo : Nat) (objs : List (Nat × Nat))
    (hcp : cp ≤ lo) (hWF : chainWF lo objs = true)
    (hpos : ∀ p ∈ objs, 0 < p.2) :
    tilesFrom cp (objs.map fun p =>
      (forwardeeOf (calc_new_locations cp objs).entries p.1, p.2)) = true := by
  induction objs generalizing cp lo with
  | nil => rfl
  | cons p rest ih =>
    obtain ⟨a, s⟩ := p
    simp only [chainWF, Bool.and_eq_true, decide_eq_true_eq] at hWF
    have hs : 0 < s := hpos (a, s) (List.mem_cons_self _ _)
    have hents : (calc_new_locations cp ((a, s) :: rest)).entries
        = ⟨a, cp, if a ≠ cp then some cp else none⟩
          :: (calc_new_locations (cp + s) rest).entries := by
      simp [calc_new_locations]
    have hhead : forwardeeOf (calc_new_locations cp ((a, s) :: rest)).entries a
        = cp := by
      rw [hents]
      exact forwardeeOf_head_cp a cp _
    have hrest : ∀ q ∈ rest,
        forwardeeOf (calc_new_locations cp ((a, s) :: rest)).entries q.1
          = forwardeeOf (calc_new_locations (cp + s) rest).entries q.1 := by
      intro q hq
      have hlb := chainWF_addr_lb (a + s) rest hWF.2 q hq
      rw [hents]
      exact forwardeeOf_skip _ _ _ (by simp; omega)
    simp only [List.map_cons, hhead, tilesFrom, Bool.and_eq_true,
      decide_eq_true_eq]
    refine ⟨trivial, ?_⟩
    rw [List.map_congr_left fun q hq => by rw [hrest q hq]]
    exact ih (cp + s) (a + s) (by omega) hWF.2
      (fun q hq => hpos q (List.mem_cons_of_mem _ hq))

end Epsilon

namespace Epsilon

/-! ## Lemmas about the collection cycle -/

/-- With the locker inactive and the bitmap committed, `entry_collect`
runs the full cycle. -/
theorem entry_collect_go (h : EHeap) (roots : List Nat) :
    entry_collect 0 true h roots = collect_cycle h roots := by
  simp [entry_collect, gclocker_is_active]

/-- A cycle on an already-compacted heap whose objects are all reachable
is the identity: no object is forwarded or moved, `push_if_necessary` is
never called, and the top stays where it was. -/
theorem collect_cycle_compacted (h : EHeap) (roots : List Nat)
    (htile : tilesFrom h.bottom (h.objs.map fun o => (o.addr, o.size)) = true)
    (htop : h.top = h.bottom + (h.objs.map EObj.size).sum)
    (hlive : ∀ o ∈ h.objs, o.addr ∈ cycleMarked h roots) :
    collect_cycle h roots =
      ⟨h, [Phase.prologue, Phase.mark, Phase.calcFwd, Phase.adjust,
        Phase.move, Phase.epilogue], 0, 0⟩ := by
  have hliveq : cycleLive h roots = h.objs := by
    unfold cycleLive
    rw [List.filter_eq_self]
    intro o ho
    simpa using hlive o ho
  have hfwdR : cycleFwd h roots
      = calc_new_locations h.bottom (h.objs.map fun o => (o.addr, o.size)) := by
    unfold cycleFwd
    rw [hliveq]
  have hcalc := calc_tiles_none h.bottom
    (h.objs.map fun o => (o.addr, o.size)) htile
  have hfwd := forwardeeOf_of_all_none
    (calc_new_locations h.bottom (h.objs.map fun o => (o.addr, o.size))).entries
    hcalc.1
  have hfe : forwardeeOf (calc_new_locations h.bottom
      (h.objs.map fun o => (o.addr, o.size))).entries = id := funext hfwd
  have hadj : h.objs.map (fun o => EObj.mk o.addr o.size (o.refs.map
      (forwardeeOf (calc_new_locations h.bottom (h.objs.map fun o =>
        (o.addr, o.size))).entries))) = h.objs := by
    rw [hfe]
    conv_rhs => rw [← List.map_id h.objs]
    refine List.map_congr_left fun o ho => ?_
    rw [List.map_id]
    rfl
  have hmv : h.objs.map (fun o => EObj.mk (forwardeeOf
      (calc_new_locations h.bottom (h.objs.map fun o =>
        (o.addr, o.size))).entries o.addr) o.size o.refs) = h.objs := by
    rw [hfe]
    conv_rhs => rw [← List.map_id h.objs]
    rfl
  have hcp : (calc_new_locations h.bottom
      (h.objs.map fun o => (o.addr, o.size))).compact_point = h.top := by
    rw [calc_compact_point, htop, List.map_map]
    rfl
  have hnil : (calc_new_locations h.bottom
      (h.objs.map fun o => (o.addr, o.size))).entries.filter
        (fun e => e.fwd ≠ none) = [] :=
    List.filter_eq_nil_iff.mpr (fun e he => by simp [hcalc.1 e he])
  simp only [collect_cycle]
  rw [hfwdR, hliveq, hadj, hmv, hcp, hnil, hcalc.2]
  rfl

/-- The heap a cycle produces is tiled from the bottom. -/
theorem collect_cycle_heap_tiled (h : EHeap) (roots : List Nat)
    (hWF : chainWF h.bottom (h.objs.map fun o => (o.addr, o.size)) = true)
    (hpos : ∀ o ∈ h.objs, 0 < o.size) :
    tilesFrom (collect_cycle h roots).heap.bottom
      ((collect_cycle h roots).heap.objs.map fun o => (o.addr, o.size))
        = true := by
  have hsub : List.Sublist
      ((cycleLive h roots).map fun o => (o.addr, o.size))
      (h.objs.map fun o => (o.addr, o.size)) :=
    (List.filter_sublist h.objs).map _
  have hWFlive : chainWF h.bottom
      ((cycleLive h roots).map fun o => (o.addr, o.size)) = true :=
    chainWF_sublist h.bottom _ _ hsub hWF
  have hposlive : ∀ p ∈ (cycleLive h roots).map fun o => (o.addr, o.size),
      0 < p.2 := by
    intro p hp
    rcases List.mem_map.mp hp with ⟨o, ho, rfl⟩
    exact hpos o (List.mem_of_mem_filter ho)
  have := calc_moved_tiles h.bottom h.bottom
    ((cycleLive h roots).map fun o => (o.addr, o.size))
    (le_refl _) hWFlive hposlive
  unfold collect_cycle
  simp only [List.map_map]
  unfold cycleFwd at this ⊢
  rw [List.map_map] at this
  convert this using 2

/-- The heap a cycle produces has its top at bottom plus total live
size. -/
theorem collect_cycle_heap_top (h : EHeap) (roots : List Nat) :
    (collect_cycle h roots).heap.top = (collect_cycle h roots).heap.bottom +
      (((collect_cycle h roots).heap.objs.map EObj.size)).sum := by
  unfold collect_cycle cycleFwd
  simp only [List.map_map]
  rw [calc_compact_point, List.map_map]
  rfl

end Epsilon

namespace ShipilevMagic

/-! ## Lemmas about `getReferencedObjects` -/

/-- The summed per-class field count equals the number of fields the
iteration visits. -/
theorem oopFieldCount_flatten (chain : List (List (Option Nat))) :
    oopFieldCount chain = chain.flatten.length := by
  induction chain with
  | nil => rfl
  | cons l rest ih =>
    simp only [oopFieldCount, List.map_cons, List.sum_cons,
      List.flatten_cons, List.length_append]
    simp only [oopFieldCount] at ih
    omega

/-- Dropping the null fields strictly shrinks the count when a null field
exists. -/
theorem filterMap_id_lt (l : List (Option Nat)) (h : none ∈ l) :
    (l.filterMap id).length < l.length := by
  induction l with
  | nil => simp at h
  | cons o rest ih =>
    cases o with
    | none =>
      have hle := List.length_filterMap_le id rest
      simp only [List.filterMap_cons, id, List.length_cons]
      omega
    | some a =>
      have h2 : none ∈ rest := by simpa using h
      have := ih h2
      simp only [List.filterMap_cons, id, List.length_cons]
      omega

end ShipilevMagic

namespace Epsilon

/-! ## Claim theorems -/

/-- C1, counterexample to the claim as stated: with 100 bytes reserved,
50 committed and 50 used, a request of exactly 50 bytes has
`want = uncommitted` and `byte size = unused`, yet `allocate_work`
returns null, contradicting the claim that such boundary requests do not
return null. -/
theorem C1_counterexample :
    allocate_work_expand ⟨100, 50, 50⟩ 50 0 = AllocDecision.outOfMemory ∧
      max 50 0 = (100 : Nat) - 50 ∧ (50 : Nat) ≤ 100 - 50 := by
  decide

/-- C1 (amended): the locked expansion step of `allocate_work` computes
`uncommitted = reserved - committed`, `unused = reserved - used`,
`want = max(n words, MinExpand)`, expands by `want` when
`want < uncommitted` (strictly), else expands by the whole uncommitted
remainder when `n words < unused` (strictly), and returns null exactly
when `uncommitted ≤ want` and `unused ≤ n words`. -/
theorem C1_allocate_work_expand
    (reserved committed used size_in_bytes minExp : Nat) :
    (max size_in_bytes minExp < reserved - committed →
      allocate_work_expand ⟨reserved, committed, used⟩ size_in_bytes minExp
        = AllocDecision.expandBy (max size_in_bytes minExp)) ∧
    (¬ max size_in_bytes minExp < reserved - committed →
      size_in_bytes < reserved - used →
      allocate_work_expand ⟨reserved, committed, used⟩ size_in_bytes minExp
        = AllocDecision.expandBy (reserved - committed)) ∧
    (allocate_work_expand ⟨reserved, committed, used⟩ size_in_bytes minExp
        = AllocDecision.outOfMemory ↔
      reserved - committed ≤ max size_in_bytes minExp ∧
        reserved - used ≤ size_in_bytes) := by
  simp only [allocate_work_expand]
  split_ifs with h1 h2 <;> simp_all <;> omega

/-- C1 witness: a bulk expansion at a concrete input. -/
theorem C1_witness :
    allocate_work_expand ⟨1000, 0, 0⟩ 64 128
      = AllocDecision.expandBy (max 64 128) :=
  (C1_allocate_work_expand 1000 0 0 64 128).1 (by decide)

/-- C3: the collection prologue returns false exactly when the request id
read before taking the heap lock is strictly below the id re-read under
the lock; otherwise it bumps the id by exactly one and returns true. -/
theorem C3_doit_prologue (id0 idLocked : Nat) :
    ((doit_prologue id0 idLocked).1 = false ↔ id0 < idLocked) ∧
      (idLocked ≤ id0 → doit_prologue id0 idLocked = (true, idLocked + 1)) := by
  simp only [doit_prologue]
  split_ifs with h <;> simp_all

/-- C3 witness: a request that proceeds, at a concrete input. -/
theorem C3_witness : doit_prologue 5 5 = (true, 6) :=
  (C3_doit_prologue 5 5).2 (by decide)

/-- C5, counterexample to the claim as stated: for stored
`last_alloc_time = 0` the decay condition `now - last > decay_ns` holds,
yet the ergonomic TLAB size is not reset (the source additionally
requires `last_time != 0`). -/
theorem C5_counterexample :
    tlab_decay_step true true 7 9 0 1000000000 1 = (7, 7) ∧
      ((1000000000 : Int) - 0 > 1) := by
  decide

/-- C5 (amended): with elastic TLABs and decay enabled, whenever the
stored `last_alloc_time` is non-zero and `now - last_alloc_time`
exceeds the decay time, the ergonomic TLAB size used for this
allocation and the stored ergonomic size are both reset to 0. -/
theorem C5_tlab_decay_reset (storedErgo requested : Nat)
    (lastTime time decayNs : Int) (hlast : lastTime ≠ 0)
    (hdecay : time - lastTime > decayNs) :
    tlab_decay_step true true storedErgo requested lastTime time decayNs
      = (0, 0) := by
  simp [tlab_decay_step, hlast, hdecay]

/-- C5 witness: a decayed thread at a concrete input. -/
theorem C5_witness :
    tlab_decay_step true true 7 9 1 2000000002 1000000000 = (0, 0) :=
  C5_tlab_decay_reset 7 9 1 2000000002 1000000000 (by decide) (by decide)

/-- C8, counterexample to the claim as stated: with `EpsilonSlidingGC`
disabled, `pin_object` and `unpin_object` leave the reader counter
untouched, so not every call increments or decrements it. -/
theorem C8_counterexample :
    pin_object false 3 = 3 ∧ unpin_object false 3 = 3 := by
  decide

/-- C8 (amended): when `EpsilonSlidingGC` is enabled, every call to
`pin_object` increments the pin-lock reader counter and every call to
`unpin_object` decrements it; with sliding GC disabled both are no-ops. -/
theorem C8_pin_unpin (readers : Nat) :
    pin_object true readers = readers + 1 ∧
      unpin_object true (readers + 1) = readers ∧
      pin_object false readers = readers ∧
      unpin_object false readers = readers := by
  simp [pin_object, unpin_object, gclocker_enter, gclocker_exit]

end Epsilon

namespace ShipilevMagic

/-- C10: `getReferencedObjects` returns 0 and writes nothing when the
class chain has no nonstatic oop fields; returns -1 and writes nothing
when the field count exceeds the buffer length; and otherwise writes
exactly the non-null referenced objects, in field order, into a prefix
of the buffer and returns their number, which is strictly less than the
field count when some field is null. -/
theorem C10_getReferencedObjects (chain : List (List (Option Nat)))
    (bufLen : Nat) :
    (oopFieldCount chain = 0 → getReferencedObjects chain bufLen = (0, [])) ∧
      (oopFieldCount chain ≠ 0 → bufLen < oopFieldCount chain →
        getReferencedObjects chain bufLen = (-1, [])) ∧
      (oopFieldCount chain ≠ 0 → oopFieldCount chain ≤ bufLen →
        (getReferencedObjects chain bufLen).2 = chain.flatten.filterMap id ∧
        (getReferencedObjects chain bufLen).1
            = ((chain.flatten.filterMap id).length : Int) ∧
        (chain.flatten.filterMap id).length ≤ oopFieldCount chain ∧
        (chain.flatten.filterMap id).length ≤ bufLen ∧
        (none ∈ chain.flatten →
          (chain.flatten.filterMap id).length < oopFieldCount chain)) := by
  refine ⟨?_, ?_, ?_⟩
  · intro h0
    simp [getReferencedObjects, h0]
  · intro hne hlt
    simp [getReferencedObjects, hne, hlt]
  · intro hne hle
    have hnotlt : ¬ bufLen < oopFieldCount chain := not_lt.mpr hle
    have hlen : (chain.flatten.filterMap id).length ≤ oopFieldCount chain := by
      rw [oopFieldCount_flatten]
      exact List.length_filterMap_le id chain.flatten
    refine ⟨?_, ?_, hlen, le_trans hlen hle, ?_⟩
    · simp [getReferencedObjects, hne, hnotlt]
    · simp [getReferencedObjects, hne, hnotlt]
    · intro hnone
      rw [oopFieldCount_flatten]
      exact filterMap_id_lt chain.flatten hnone

/-- C10 witness: a class chain with no oop fields at a concrete input. -/
theorem C10_witness : getReferencedObjects [[], []] 3 = (0, []) :=
  (C10_getReferencedObjects [[], []] 3).1 (by decide)

end ShipilevMagic

namespace Epsilon

/-- C2: along the address-ordered walk of the marked objects, the final
compaction point is the bottom plus the total live size and stays at or
below the pre-cycle top; every assigned forwardee is at or below the
object's original address; the forwardees are assigned at strictly
increasing addresses; and an object already at the compaction point is
not forwarded. -/
theorem C2_compute_forwarding (bottom top : Nat) (objs : List (Nat × Nat))
    (hWF : chainWF bottom objs = true) (hbt : bottom ≤ top)
    (hin : ∀ p ∈ objs, p.1 + p.2 ≤ top) (hpos : ∀ p ∈ objs, 0 < p.2) :
    (calc_new_locations bottom objs).compact_point
        = bottom + (objs.map Prod.snd).sum ∧
      (calc_new_locations bottom objs).compact_point ≤ top ∧
      (∀ e ∈ (calc_new_locations bottom objs).entries,
        ∀ f, e.fwd = some f → f ≤ e.addr) ∧
      List.Pairwise (· < ·)
        ((calc_new_locations bottom objs).entries.filterMap FwdEntry.fwd) ∧
      (∀ e ∈ (calc_new_locations bottom objs).entries,
        e.addr = e.cp → e.fwd = none) := by
  refine ⟨calc_compact_point bottom objs,
    calc_cp_le_top bottom bottom top objs (le_refl _) hbt hWF hin,
    ?_, (calc_fwd_sorted bottom objs hpos).1, ?_⟩
  · intro e he f hf
    have hc := calc_fwd_char bottom objs e he
    have hle := calc_cp_le_addr bottom bottom objs (le_refl _) hWF e he
    rw [hf] at hc
    by_cases heq : e.addr = e.cp
    · simp [heq] at hc
    · simp [heq] at hc
      omega
  · intro e he heq
    have hc := calc_fwd_char bottom objs e he
    simp [heq] at hc
    exact hc

/-- C2 witness: a two-object layout with a gap, at a concrete input. -/
theorem C2_witness :
    (calc_new_locations 0 [(0, 2), (4, 3)]).compact_point
        = 0 + ([(0, 2), (4, 3)].map Prod.snd).sum ∧
      (calc_new_locations 0 [(0, 2), (4, 3)]).compact_point ≤ 10 ∧
      (∀ e ∈ (calc_new_locations 0 [(0, 2), (4, 3)]).entries,
        ∀ f, e.fwd = some f → f ≤ e.addr) ∧
      List.Pairwise (· < ·)
        ((calc_new_locations 0 [(0, 2), (4, 3)]).entries.filterMap
          FwdEntry.fwd) ∧
      (∀ e ∈ (calc_new_locations 0 [(0, 2), (4, 3)]).entries,
        e.addr = e.cp → e.fwd = none) :=
  C2_compute_forwarding 0 10 [(0, 2), (4, 3)] (by decide) (by decide)
    (by decide) (by decide)

/-- C9: the mark phase (a total function, so it terminates on every
object graph, cyclic ones included) performs exactly one pop-and-scan
iteration per marked object, and the marked set is exactly the set of
objects reachable from the roots. -/
theorem C9_mark_termination (adj : Nat → List Nat) (univ : Finset Nat)
    (roots : List Nat) :
    (epsilonMark adj univ roots).2 = (epsilonMark adj univ roots).1.card ∧
      ∀ x, x ∈ (epsilonMark adj univ roots).1 ↔ Reaches adj univ roots x :=
  ⟨epsilonMark_count adj univ roots,
   fun x => ⟨epsilonMark_sound adj univ roots x,
     epsilonMark_complete adj univ roots x⟩⟩

/-- C6: with the pin-lock reader count non-zero the collection aborts at
entry: the heap is returned untouched and no phase (prologue included)
is entered. -/
theorem C6_pin_blocks_collection (readers : Nat) (commitOk : Bool)
    (h : EHeap) (roots : List Nat) (hact : readers ≠ 0) :
    entry_collect readers commitOk h roots = ⟨h, [], 0, 0⟩ := by
  simp [entry_collect, gclocker_is_active, hact]

/-- C6 witness: a pinned heap at a concrete input. -/
theorem C6_witness :
    entry_collect 1 true (EHeap.mk 0 4 [EObj.mk 0 2 []]) []
      = ⟨EHeap.mk 0 4 [EObj.mk 0 2 []], [], 0, 0⟩ :=
  C6_pin_blocks_collection 1 true (EHeap.mk 0 4 [EObj.mk 0 2 []]) []
    (by decide)

/-- C7: when committing the bitmap fails, `entry_collect` returns before
any marking begins: the heap is unchanged, the mark phase is never
entered, no mark is preserved and no object is moved. -/
theorem C7_bitmap_commit_failure (readers : Nat) (h : EHeap)
    (roots : List Nat) :
    (entry_collect readers false h roots).heap = h ∧
      Phase.mark ∉ (entry_collect readers false h roots).phases ∧
      (entry_collect readers false h roots).pushCalls = 0 ∧
      (entry_collect readers false h roots).moved = 0 := by
  by_cases hact : gclocker_is_active readers
  · simp [entry_collect, hact]
  · simp [entry_collect, hact]

end Epsilon

namespace Epsilon

/-! ## Second-cycle lemmas: the adjusted roots still cover the survivors -/

/-- Marks never leave the heap-object universe. -/
theorem epsilonMark_subset_univ (adj : Nat → List Nat) (univ : Finset Nat)
    (roots : List Nat) :
    ∀ x ∈ (epsilonMark adj univ roots).1, x ∈ univ := by
  simp only [epsilonMark]
  refine markLoop_sound adj univ (fun z => z ∈ univ)
    (fun _ _ _ _ hy => hy) _ _ _ ?_ ?_
  · intro x hx
    rcases scanRefs_marked_src univ roots ∅ [] x hx with hm | ⟨_, hu⟩
    · simp at hm
    · exact hu
  · intro x hx
    rcases scanRefs_stack_src univ roots ∅ [] x hx with hm | ⟨_, hu⟩
    · simp at hm
    · exact hu

/-- The final marked set is closed under following reference fields. -/
theorem epsilonMark_closed (adj : Nat → List Nat) (univ : Finset Nat)
    (roots : List Nat) :
    ∀ x ∈ (epsilonMark adj univ roots).1, ∀ y, y ∈ adj x → y ∈ univ →
      y ∈ (epsilonMark adj univ roots).1 := by
  simp only [epsilonMark]
  exact markLoop_closed adj univ _ _ 0 (fun x hx => Or.inr (by
    rcases scanRefs_new_on_stack univ roots ∅ [] x hx with hm | hs2
    · simp at hm
    · exact hs2))

/-- Objects of a tiled layout start at or after the tiling origin. -/
theorem tiles_addr_lb (cp : Nat) (l : List (Nat × Nat))
    (ht : tilesFrom cp l = true) : ∀ p ∈ l, cp ≤ p.1 := by
  induction l generalizing cp with
  | nil => simp
  | cons p rest ih =>
    obtain ⟨a, s⟩ := p
    simp only [tilesFrom, Bool.and_eq_true, decide_eq_true_eq] at ht
    obtain ⟨rfl, ht2⟩ := ht
    intro q hq
    rcases List.mem_cons.mp hq with rfl | hq2
    · exact le_refl _
    · have := ih (a + s) ht2 q hq2
      omega

/-- Objects of a tiled layout with positive sizes sit at strictly
increasing addresses. -/
theorem tiles_addr_sorted (cp : Nat) (l : List (Nat × Nat))
    (ht : tilesFrom cp l = true) (hpos : ∀ p ∈ l, 0 < p.2) :
    List.Pairwise (· < ·) (l.map Prod.fst) := by
  induction l generalizing cp with
  | nil => simp
  | cons p rest ih =>
    obtain ⟨a, s⟩ := p
    simp only [tilesFrom, Bool.and_eq_true, decide_eq_true_eq] at ht
    obtain ⟨rfl, ht2⟩ := ht
    have hs : 0 < s := hpos (a, s) (List.mem_cons_self _ _)
    have hlb := tiles_addr_lb (a + s) rest ht2
    simp only [List.map_cons]
    refine List.pairwise_cons.mpr ⟨?_, ih (a + s) ht2
      (fun q hq => hpos q (List.mem_cons_of_mem _ hq))⟩
    intro b hb
    rcases List.mem_map.mp hb with ⟨q, hq, rfl⟩
    have := hlb q hq
    omega

/-- Objects of a well-formed layout with positive sizes sit at strictly
increasing addresses. -/
theorem chainWF_addr_sorted (lo : Nat) (l : List (Nat × Nat))
    (hWF : chainWF lo l = true) (hpos : ∀ p ∈ l, 0 < p.2) :
    List.Pairwise (· < ·) (l.map Prod.fst) := by
  induction l generalizing lo with
  | nil => simp
  | cons p rest ih =>
    obtain ⟨a, s⟩ := p
    simp only [chainWF, Bool.and_eq_true, decide_eq_true_eq] at hWF
    have hs : 0 < s := hpos (a, s) (List.mem_cons_self _ _)
    have hlb := chainWF_addr_lb (a + s) rest hWF.2
    simp only [List.map_cons]
    refine List.pairwise_cons.mpr ⟨?_, ih (a + s) hWF.2
      (fun q hq => hpos q (List.mem_cons_of_mem _ hq))⟩
    intro b hb
    rcases List.mem_map.mp hb with ⟨q, hq, rfl⟩
    have := hlb q hq
    omega

/-- With pairwise-distinct addresses, address lookup finds the object. -/
theorem find_addr_eq (objs : List EObj)
    (hnd : List.Pairwise (· ≠ ·) (objs.map EObj.addr)) (o : EObj)
    (ho : o ∈ objs) :
    objs.find? (fun p => p.addr = o.addr) = some o := by
  induction objs with
  | nil => simp at ho
  | cons q rest ih =>
    simp only [List.map_cons, List.pairwise_cons] at hnd
    rcases List.mem_cons.mp ho with rfl | ho2
    · simp [List.find?_cons]
    · have hne : ¬ q.addr = o.addr :=
        hnd.1 o.addr (List.mem_map_of_mem _ ho2)
      rw [List.find?_cons]
      simp only [hne, decide_eq_false, cond_false]
      exact ih hnd.2 ho2

/-- `heapAdj` on a heap with pairwise-distinct addresses returns the
object's reference fields. -/
theorem heapAdj_eq (h : EHeap)
    (hnd : List.Pairwise (· ≠ ·) (h.objs.map EObj.addr)) (o : EObj)
    (ho : o ∈ h.objs) : heapAdj h o.addr = o.refs := by
  unfold heapAdj
  rw [find_addr_eq h.objs hnd o ho]

end Epsilon

namespace Epsilon

/-- After a cycle, seeding the next mark with the adjusted roots (each
root slot rewritten to its forwardee, as Step 3 does) still covers every
surviving object: reachability is preserved by the sliding relocation. -/
theorem collect_cycle_live_again (h : EHeap) (roots : List Nat)
    (hWF : chainWF h.bottom (h.objs.map fun o => (o.addr, o.size)) = true)
    (hpos : ∀ o ∈ h.objs, 0 < o.size) :
    ∀ o ∈ (collect_cycle h roots).heap.objs,
      o.addr ∈ cycleMarked (collect_cycle h roots).heap
        (roots.map (forwardeeOf (cycleFwd h roots).entries)) := by
  have hposp : ∀ p ∈ h.objs.map (fun o => (o.addr, o.size)), 0 < p.2 := by
    intro p hp
    rcases List.mem_map.mp hp with ⟨o, ho, rfl⟩
    exact hpos o ho
  have hndh : List.Pairwise (· ≠ ·) (h.objs.map EObj.addr) := by
    have h1 := chainWF_addr_sorted h.bottom
      (h.objs.map fun o => (o.addr, o.size)) hWF hposp
    rw [List.map_map] at h1
    exact h1.imp Nat.ne_of_lt
  have hsubl : List.Sublist
      ((cycleLive h roots).map fun o => (o.addr, o.size))
      (h.objs.map fun o => (o.addr, o.size)) :=
    (List.filter_sublist h.objs).map _
  have hWFlive : chainWF h.bottom
      ((cycleLive h roots).map fun o => (o.addr, o.size)) = true :=
    chainWF_sublist h.bottom _ _ hsubl hWF
  have hposlive : ∀ p ∈ (cycleLive h roots).map fun o => (o.addr, o.size),
      0 < p.2 := by
    intro p hp
    rcases List.mem_map.mp hp with ⟨o, ho, rfl⟩
    exact hpos o (List.mem_of_mem_filter ho)
  have htiles := calc_moved_tiles h.bottom h.bottom
    ((cycleLive h roots).map fun o => (o.addr, o.size))
    (le_refl _) hWFlive hposlive
  have hposmoved : ∀ p ∈ ((cycleLive h roots).map fun o =>
      (o.addr, o.size)).map (fun p => (forwardeeOf (calc_new_locations h.bottom
        ((cycleLive h roots).map fun o => (o.addr, o.size))).entries p.1,
          p.2)), 0 < p.2 := by
    intro p hp
    rcases List.mem_map.mp hp with ⟨q, hq, rfl⟩
    exact hposlive q hq
  have hndmoved0 := (tiles_addr_sorted h.bottom _ htiles hposmoved).imp
    (fun hlt => Nat.ne_of_lt hlt)
  have hobjs : (collect_cycle h roots).heap.objs
      = (cycleLive h roots).map (fun o =>
          EObj.mk (forwardeeOf (cycleFwd h roots).entries o.addr) o.size
            (o.refs.map (forwardeeOf (cycleFwd h roots).entries))) := by
    simp only [collect_cycle, List.map_map]
    rfl
  have hndg : List.Pairwise (· ≠ ·)
      ((collect_cycle h roots).heap.objs.map EObj.addr) := by
    rw [hobjs, List.map_map]
    rw [List.map_map, List.map_map] at hndmoved0
    exact hndmoved0
  have hmark_to_live : ∀ x ∈ cycleMarked h roots,
      ∃ o2, o2 ∈ cycleLive h roots ∧ o2.addr = x := by
    intro x hx
    have hxu : x ∈ heapUniv h :=
      epsilonMark_subset_univ (heapAdj h) (heapUniv h) roots x hx
    simp only [heapUniv, List.mem_toFinset, List.mem_map] at hxu
    obtain ⟨o2, ho2, rfl⟩ := hxu
    refine ⟨o2, ?_, rfl⟩
    simp only [cycleLive]
    exact List.mem_filter.mpr ⟨ho2, by simpa using hx⟩
  have hmoveduniv : ∀ o2 ∈ cycleLive h roots,
      forwardeeOf (cycleFwd h roots).entries o2.addr
        ∈ heapUniv (collect_cycle h roots).heap := by
    intro o2 ho2
    simp only [heapUniv, hobjs, List.map_map, List.mem_toFinset]
    exact List.mem_map.mpr ⟨o2, ho2, rfl⟩
  have hadj_g : ∀ o2 ∈ cycleLive h roots,
      heapAdj (collect_cycle h roots).heap
          (forwardeeOf (cycleFwd h roots).entries o2.addr)
        = o2.refs.map (forwardeeOf (cycleFwd h roots).entries) := by
    intro o2 ho2
    exact heapAdj_eq (collect_cycle h roots).heap hndg
      (EObj.mk (forwardeeOf (cycleFwd h roots).entries o2.addr) o2.size
        (o2.refs.map (forwardeeOf (cycleFwd h roots).entries)))
      (by rw [hobjs]; exact List.mem_map_of_mem _ ho2)
  have htrans : ∀ r, r ∈ roots → r ∈ heapUniv h → ∀ z,
      Relation.ReflTransGen (EdgeRel (heapAdj h) (heapUniv h)) r z →
      z ∈ cycleMarked h roots ∧
        Relation.ReflTransGen
          (EdgeRel (heapAdj (collect_cycle h roots).heap)
            (heapUniv (collect_cycle h roots).heap))
          (forwardeeOf (cycleFwd h roots).entries r)
          (forwardeeOf (cycleFwd h roots).entries z) := by
    intro r hr hru z hz
    induction hz with
    | refl =>
      exact ⟨epsilonMark_root_marked (heapAdj h) (heapUniv h) roots r hr hru,
        Relation.ReflTransGen.refl⟩
    | @tail b c hz2 hedge ih =>
      obtain ⟨hbmark, hbpath⟩ := ih
      have hcmark : c ∈ cycleMarked h roots :=
        epsilonMark_closed (heapAdj h) (heapUniv h) roots b hbmark c
          hedge.1 hedge.2
      refine ⟨hcmark, hbpath.tail ?_⟩
      obtain ⟨ob, hob, hobaddr⟩ := hmark_to_live b hbmark
      obtain ⟨oc, hoc, hocaddr⟩ := hmark_to_live c hcmark
      constructor
      · rw [← hobaddr, hadj_g ob hob]
        have hcrefs : c ∈ ob.refs := by
          rw [← heapAdj_eq h hndh ob (List.mem_of_mem_filter hob), hobaddr]
          exact hedge.1
        exact List.mem_map_of_mem _ hcrefs
      · rw [← hocaddr]
        exact hmoveduniv oc hoc
  intro o ho
  rw [hobjs] at ho
  rcases List.mem_map.mp ho with ⟨o0, ho0, rfl⟩
  have ho0mark : o0.addr ∈ cycleMarked h roots := by
    have := List.mem_filter.mp (by simpa only [cycleLive] using ho0)
    simpa using this.2
  obtain ⟨r, hr, hru, rtg⟩ :=
    epsilonMark_sound (heapAdj h) (heapUniv h) roots o0.addr ho0mark
  obtain ⟨_, hpath⟩ := htrans r hr hru o0.addr rtg
  simp only [cycleMarked]
  exact epsilonMark_complete _ _ _ _
    ⟨forwardeeOf (cycleFwd h roots).entries r,
     List.mem_map_of_mem _ hr,
     by
       obtain ⟨orr, horr, horraddr⟩ := hmark_to_live r
         (epsilonMark_root_marked (heapAdj h) (heapUniv h) roots r hr hru)
       rw [← horraddr]
       exact hmoveduniv orr horr,
     hpath⟩

end Epsilon

namespace Epsilon

/-- C4: a second cycle run immediately after a completed cycle — no
intervening allocation, the same roots (their slots rewritten by Step 3
to the forwardees), the same live-object graph — forwards no object,
never calls `push_if_necessary`, moves nothing, and returns the heap,
in particular the top pointer, exactly unchanged; the set it marks is
the entire surviving object set again. -/
theorem C4_second_cycle_noop (h : EHeap) (roots : List Nat)
    (hWF : chainWF h.bottom (h.objs.map fun o => (o.addr, o.size)) = true)
    (hpos : ∀ o ∈ h.objs, 0 < o.size) :
    entry_collect 0 true (entry_collect 0 true h roots).heap
        (roots.map (forwardeeOf (cycleFwd h roots).entries))
      = ⟨(entry_collect 0 true h roots).heap,
         [Phase.prologue, Phase.mark, Phase.calcFwd, Phase.adjust,
          Phase.move, Phase.epilogue], 0, 0⟩ := by
  simp only [entry_collect_go]
  exact collect_cycle_compacted _ _
    (collect_cycle_heap_tiled h roots hWF hpos)
    (collect_cycle_heap_top h roots)
    (collect_cycle_live_again h roots hWF hpos)

/-- C4 witness: two live objects with a gap between them, at a concrete
input. -/
theorem C4_witness :
    entry_collect 0 true
        (entry_collect 0 true (EHeap.mk 0 7 [EObj.mk 0 2 [5], EObj.mk 5 2 [0]])
          [0, 5]).heap
        ([0, 5].map (forwardeeOf
          (cycleFwd (EHeap.mk 0 7 [EObj.mk 0 2 [5], EObj.mk 5 2 [0]])
            [0, 5]).entries))
      = ⟨(entry_collect 0 true (EHeap.mk 0 7 [EObj.mk 0 2 [5], EObj.mk 5 2 [0]])
          [0, 5]).heap,
         [Phase.prologue, Phase.mark, Phase.calcFwd, Phase.adjust,
          Phase.move, Phase.epilogue], 0, 0⟩ :=
  C4_second_cycle_noop (EHeap.mk 0 7 [EObj.mk 0 2 [5], EObj.mk 5 2 [0]])
    [0, 5] (by decide) (by decide)

end Epsilon
